import Mathlib

/-!
Shallow embedding of the core of the `astra-db-ts` client:
the distinct path extractor, the bulk-write / insert-many orchestrator,
the empty-filter guard of `deleteMany`, the unordered worker-pool option
handling, and the find-cursor lifecycle, together with theorems checking
the natural-language specification against this embedding.
-/

namespace AstraDB

/-! ### JavaScript-like value model

`JVal` models the JSON-like runtime values the client manipulates.
`undefined` is identified with `null` (both are falsy, and neither is an
array nor a non-null object, which is all the embedded code observes).
Numbers are modelled as integers (no floating point is involved in the
embedded control flow). -/

inductive JVal where
  | null : JVal
  | bool : Bool → JVal
  | num : Int → JVal
  | str : String → JVal
  | arr : List JVal → JVal
  | obj : List (String × JVal) → JVal
deriving Repr

/-- Structural boolean equality on `JVal`, mirroring the structural
`objectHash` that `Collection.distinct` uses to key object values in its
deduplication set, and primitive equality for scalars. -/
def JVal.beq : JVal → JVal → Bool
  | .null, .null => true
  | .bool a, .bool b => a == b
  | .num a, .num b => a == b
  | .str a, .str b => a == b
  | .arr xs, .arr ys => beqList xs ys
  | .obj xs, .obj ys => beqFields xs ys
  | _, _ => false
where
  beqList : List JVal → List JVal → Bool
    | [], [] => true
    | a :: as, b :: bs => JVal.beq a b && beqList as bs
    | _, _ => false
  beqFields : List (String × JVal) → List (String × JVal) → Bool
    | [], [] => true
    | (k1, v1) :: as, (k2, v2) :: bs => k1 == k2 && JVal.beq v1 v2 && beqFields as bs
    | _, _ => false

/-- JavaScript truthiness test, as observed by `if (!value)`. Arrays and
objects (even empty ones) are always truthy in JavaScript. -/
def jsFalsy : JVal → Bool
  | .null => true
  | .bool b => !b
  | .num n => n == 0
  | .str s => s == ""
  | .arr _ => false
  | .obj _ => false

/-- `value[prop]` on an object: the value of the first matching key, or
`undefined` (modelled as `null`) when absent. -/
def objGet (fields : List (String × JVal)) (k : String) : JVal :=
  match fields.find? (fun kv => kv.1 == k) with
  | some kv => kv.2
  | none => .null

/-- Numeric value of a run of decimal digits. -/
def digitsVal (cs : List Char) : Nat :=
  cs.foldl (fun a c => a * 10 + (c.toNat - 48)) 0

/-- Model of JavaScript `parseInt(s, 10)`: skip leading whitespace, read an
optional sign, then take the longest prefix of decimal digits; `NaN`
(modelled as `none`) when that prefix is empty. -/
def parseIntJS (s : String) : Option Int :=
  let cs := s.toList.dropWhile (fun c => c.isWhitespace)
  let sr : Int × List Char :=
    match cs with
    | '-' :: r => (-1, r)
    | '+' :: r => (1, r)
    | r => (1, r)
  let ds := sr.2.takeWhile (fun c => c.isDigit)
  if ds.isEmpty then none else some (sr.1 * (digitsVal ds : Int))

/-- The recursive worker of `mkDistinctPathExtractor` (`extract` in the
source): resolves a dotted path (already split on `.`) against a value,
collecting terminal values. Mirrors the source exactly: a falsy value
short-circuits; at the end of the path a terminal array is flattened one
level (`values.push(...value)`) and any other value is collected; on an
array, a segment whose `parseInt` is not `NaN` is used as an index
(out-of-range or negative indices reach `undefined`, hence contribute
nothing), and a non-numeric segment is broadcast across every element;
on an object the named property is followed; scalars end the branch. -/
def extract (path : List String) (v : JVal) : List JVal :=
  if jsFalsy v then []
  else
    match path with
    | [] =>
      match v with
      | .arr xs => xs
      | w => [w]
    | p :: rest =>
      match v with
      | .arr xs =>
        match parseIntJS p with
        | none => (xs.attach.map (fun ⟨x, hx⟩ => extract (p :: rest) x)).flatten
        | some k =>
          if h : 0 ≤ k ∧ k.toNat < xs.length then extract rest (xs.get ⟨k.toNat, h.2⟩)
          else []
      | .obj fields => extract rest (objGet fields p)
      | _ => []
termination_by sizeOf v
decreasing_by
  · simp only [JVal.arr.sizeOf_spec]
    have := List.sizeOf_lt_of_mem hx
    omega
  · simp only [JVal.arr.sizeOf_spec]
    have := List.sizeOf_lt_of_mem (xs.get_mem k.toNat h.2)
    omega
  · simp only [JVal.obj.sizeOf_spec]
    unfold objGet
    cases hf : fields.find? (fun kv => kv.1 == p) with
    | none =>
      have h0 : sizeOf JVal.null = 1 := rfl
      have h1 : 1 ≤ sizeOf fields := by
        cases fields <;> simp_arith
      show sizeOf JVal.null < 1 + sizeOf fields
      omega
    | some kv =>
      have hmem : kv ∈ fields := List.mem_of_find?_eq_some hf
      have h1 : sizeOf kv < sizeOf fields := List.sizeOf_lt_of_mem hmem
      have h2 : sizeOf kv.2 < sizeOf kv := by
        obtain ⟨a, b⟩ := kv
        simp only [Prod.mk.sizeOf_spec]
        omega
      show sizeOf kv.2 < 1 + sizeOf fields
      omega

/-- JavaScript `path.split('.')`: cut the string at every dot, keeping
empty pieces (so an empty path gives one empty segment, as in the
source). -/
def splitDotAux : List Char → List Char → List String
  | [], acc => [String.mk acc.reverse]
  | c :: cs, acc =>
    if c = '.' then String.mk acc.reverse :: splitDotAux cs []
    else splitDotAux cs (c :: acc)

def splitDot (s : String) : List String :=
  splitDotAux s.toList []

/-- Pure per-document extraction at a dotted path string: what one call of
the extractor contributes for one document. -/
def extractVals (pathStr : String) (doc : JVal) : List JVal :=
  extract (splitDot pathStr) doc

/-- The successive return values of the function produced by
`mkDistinctPathExtractor` when applied to a list of documents in turn.
The source closure pushes into one shared `values` array and returns that
same array from every call, so each return value carries everything
accumulated so far. -/
def extractorOutputs (pathStr : String) (docs : List JVal) : List (List JVal) :=
  go [] docs
where
  go (values : List JVal) : List JVal → List (List JVal)
    | [] => []
    | d :: ds =>
      let vs := values ++ extractVals pathStr d
      vs :: go vs ds

/-- Membership in the deduplication set (`seen.has`), keyed by structural
equality as in the source (`objectHash` for objects, value equality for
scalars). -/
def seenHas (seen : List JVal) (v : JVal) : Bool :=
  seen.any (fun w => JVal.beq w v)

/-- One pass of the deduplication loop in `Collection.distinct`: walk the
extracted values, skipping the ones already seen and appending fresh ones
to both the seen set and the result. -/
def dedupInto : List JVal → List JVal → List JVal → List JVal × List JVal
  | seen, ret, [] => (seen, ret)
  | seen, ret, v :: vs =>
    if seenHas seen v then dedupInto seen ret vs
    else dedupInto (v :: seen) (ret ++ [v]) vs

/-- The document loop of `Collection.distinct`, faithful to the source: at
each document it receives the *entire accumulated* value list of the extractor
(the shared closure array) and runs the deduplication pass over all of it. -/
def distinctGo (p : List String) : List JVal → List JVal → List JVal → List JVal → List JVal
  | _, _, ret, [] => ret
  | values, seen, ret, d :: ds =>
    let vs := values ++ extract p d
    let sr := dedupInto seen ret vs
    distinctGo p vs sr.1 sr.2 ds

/-- `Collection.distinct` over an already-fetched list of documents. -/
def distinctRun (pathStr : String) (docs : List JVal) : List JVal :=
  distinctGo (splitDot pathStr) [] [] [] docs

/-- What `distinct` would compute with a pure per-document extractor:
deduplicate the concatenation of the per-document extractions. -/
def distinctPure (pathStr : String) (docs : List JVal) : List JVal :=
  (dedupInto [] [] ((docs.map (extractVals pathStr)).flatten)).2

/-- Every array occurring anywhere in the value has only truthy
elements. -/
def arraysTruthy (v : JVal) : Bool :=
  match v with
  | .arr xs => xs.attach.all (fun ⟨x, hx⟩ => !jsFalsy x && arraysTruthy x)
  | .obj fs => fs.attach.all (fun ⟨kv, hkv⟩ => arraysTruthy kv.2)
  | _ => true
termination_by sizeOf v
decreasing_by
  · simp only [JVal.arr.sizeOf_spec]
    have := List.sizeOf_lt_of_mem hx
    omega
  · simp only [JVal.obj.sizeOf_spec]
    have h1 := List.sizeOf_lt_of_mem hkv
    have h2 : sizeOf kv.2 < sizeOf kv := by
      obtain ⟨a, b⟩ := kv
      simp only [Prod.mk.sizeOf_spec]
      omega
    omega

/-! ### Bulk-write orchestrator model

The command executor is an external collaborator; a run is modelled
against the per-operation outcomes it would produce.  `ExecOutcome.ok`
is a 2XX response (whose `status` the source reads with `resp.status!`),
`ExecOutcome.opError` is a thrown `DataAPIResponseError` (carrying the
command and the raw response of its first detailed error descriptor),
and `ExecOutcome.fatal` is any other thrown error. -/

/-- The mutation counters of a command response `status`, as read by
`addToBulkWriteResult`.  Fields are optional, mirroring absent JSON
fields (`?? 0` / `?.length ?? 0` in the source). -/
structure BWStatus where
  insertedIds : Option (List String) := none
  matchedCount : Option Nat := none
  modifiedCount : Option Nat := none
  deletedCount : Option Nat := none
  upsertedId : Option String := none
deriving Repr, DecidableEq

/-- The raw response held by a `DataAPIResponseError` descriptor; its
`status` may be absent. -/
structure RawResponse where
  status : Option BWStatus := none
deriving Repr, DecidableEq

/-- Outcome of one `executeCommand` call. -/
inductive ExecOutcome where
  | ok (status : BWStatus)
  | opError (raw : RawResponse)
  | fatal (msg : String)
deriving Repr, DecidableEq

/-- `BulkWriteResult`: the mutable accumulator of a bulk-write run. -/
structure BulkWriteResult where
  deletedCount : Nat := 0
  insertedCount : Nat := 0
  matchedCount : Nat := 0
  modifiedCount : Nat := 0
  upsertedCount : Nat := 0
  upsertedIds : List (Nat × String) := []
  rawResponses : List BWStatus := []
deriving Repr, DecidableEq

def BulkWriteResult.empty : BulkWriteResult := {}

/-- JavaScript truthiness of `resp.upsertedId` (a missing id or an empty
string is falsy). -/
def jsTruthyId : Option String → Bool
  | none => false
  | some s => !(s == "")

/-- `addToBulkWriteResult(result, resp, i)`: fold one response `status`
into the accumulator, recording an upserted id under the operation index
`i` when the response carries a truthy one. -/
def addToBulkWriteResult (r : BulkWriteResult) (resp : BWStatus) (i : Nat) : BulkWriteResult :=
  let base : BulkWriteResult :=
    { r with
      insertedCount := r.insertedCount + (resp.insertedIds.getD []).length
      modifiedCount := r.modifiedCount + resp.modifiedCount.getD 0
      matchedCount := r.matchedCount + resp.matchedCount.getD 0
      deletedCount := r.deletedCount + resp.deletedCount.getD 0
      rawResponses := r.rawResponses ++ [resp] }
  if jsTruthyId resp.upsertedId then
    { base with
      upsertedCount := base.upsertedCount + 1
      upsertedIds := base.upsertedIds ++ [(i, (resp.upsertedId.getD ""))] }
  else base

/-- A bulk-write operation descriptor (`AnyBulkWriteOperation`); the
`upsert` flag is optional in the caller-facing model types. -/
inductive BulkOp where
  | insertOne (document : JVal)
  | updateOne (filter update : JVal) (upsert : Option Bool)
  | updateMany (filter update : JVal) (upsert : Option Bool)
  | replaceOne (filter replacement : JVal) (upsert : Option Bool)
  | deleteOne (filter : JVal)
  | deleteMany (filter : JVal)
deriving Repr

/-- The command actually sent for one bulk-write operation. `replaceOne`
descriptors become `findOneAndReplace` commands. -/
inductive BWCommand where
  | insertOne (document : JVal)
  | updateOne (filter update : JVal) (upsert : Bool)
  | updateMany (filter update : JVal) (upsert : Bool)
  | findOneAndReplace (filter replacement : JVal) (upsert : Bool)
  | deleteOne (filter : JVal)
  | deleteMany (filter : JVal)
deriving Repr

/-- `buildBulkWriteCommands`: translate a descriptor into the command it
sends, defaulting a missing `upsert` flag to `false`. -/
def buildBulkWriteCommands : BulkOp → BWCommand
  | .insertOne d => .insertOne d
  | .updateOne f u up => .updateOne f u (up.getD false)
  | .updateMany f u up => .updateMany f u (up.getD false)
  | .replaceOne f r up => .findOneAndReplace f r (up.getD false)
  | .deleteOne f => .deleteOne f
  | .deleteMany f => .deleteMany f

/-- Whether a command enables upsert. -/
def cmdUpsertEnabled : BWCommand → Bool
  | .updateOne _ _ up => up
  | .updateMany _ _ up => up
  | .findOneAndReplace _ _ up => up
  | _ => false

/-- Whether a descriptor is a `replaceOne`/`updateOne`/`updateMany` with
`upsert = true` (defaulted to `false` when absent). -/
def opIsUpsert : BulkOp → Bool
  | .updateOne _ _ up => up.getD false
  | .updateMany _ _ up => up.getD false
  | .replaceOne _ _ up => up.getD false
  | _ => false

/-- The aggregated error payload of `BulkWriteError` /
`mkRespErrorFromResponses`: the failing commands, their raw responses,
and the partial `BulkWriteResult`. -/
structure BulkWriteErrorModel where
  commands : List BWCommand
  rawResponses : List RawResponse
  partialResult : BulkWriteResult
deriving Repr

/-- What a bulk-write run throws: the aggregated `BulkWriteError`, or a
non-operation-level error re-thrown as is. -/
inductive BWThrown where
  | bulkWriteError (e : BulkWriteErrorModel)
  | fatal (msg : String)
deriving Repr

/-- `bulkWriteOrdered`, with an explicit count of `executeCommand` calls
made.  Operations run sequentially in index order; a 2XX response is
folded into the accumulator; a `DataAPIResponseError` folds the partial
`status` of its raw response (when present) into the accumulator and
throws a `BulkWriteError` carrying it; any other error is re-thrown
unchanged.  Either error stops the loop. -/
def bulkWriteOrderedAux (i : Nat) (res : BulkWriteResult) :
    List (BWCommand × ExecOutcome) → Nat × Except BWThrown BulkWriteResult
  | [] => (0, .ok res)
  | (cmd, o) :: rest =>
    match o with
    | .ok st =>
      let no := bulkWriteOrderedAux (i + 1) (addToBulkWriteResult res st i) rest
      (no.1 + 1, no.2)
    | .opError raw =>
      let res2 :=
        match raw.status with
        | some st => addToBulkWriteResult res st i
        | none => res
      (1, .error (.bulkWriteError ⟨[cmd], [raw], res2⟩))
    | .fatal m => (1, .error (.fatal m))

def bulkWriteOrdered (pairs : List (BWCommand × ExecOutcome)) :
    Nat × Except BWThrown BulkWriteResult :=
  bulkWriteOrderedAux 0 BulkWriteResult.empty pairs

/-- `bulkWriteUnordered`, parameterised by the order in which the worker
pool dequeues operation indices (the shared `masterIndex` hands each
index to exactly one worker, so the schedule of a run is a permutation of
`0..n-1`; completion order between workers is unspecified).  A
`DataAPIResponseError` folds partial effects, records the failing command
and raw response, and the worker continues; any other error aborts the
run and is re-thrown unchanged.  After all workers finish, recorded
failures are aggregated into one `BulkWriteError` carrying the
accumulator; with no failures the accumulator is returned. -/
def bulkWriteUnorderedAux (pairs : List (BWCommand × ExecOutcome)) :
    List Nat → BulkWriteResult → List BWCommand → List RawResponse →
    Nat × Except BWThrown BulkWriteResult
  | [], res, failCmds, failRaw =>
    (0,
      if failCmds.length > 0 then .error (.bulkWriteError ⟨failCmds, failRaw, res⟩)
      else .ok res)
  | i :: order, res, failCmds, failRaw =>
    match pairs[i]? with
    | none =>
      let no := bulkWriteUnorderedAux pairs order res failCmds failRaw
      (no.1, no.2)
    | some (cmd, o) =>
      match o with
      | .ok st =>
        let no := bulkWriteUnorderedAux pairs order (addToBulkWriteResult res st i) failCmds failRaw
        (no.1 + 1, no.2)
      | .opError raw =>
        let res2 :=
          match raw.status with
          | some st => addToBulkWriteResult res st i
          | none => res
        let no := bulkWriteUnorderedAux pairs order res2 (failCmds ++ [cmd]) (failRaw ++ [raw])
        (no.1 + 1, no.2)
      | .fatal m => (1, .error (.fatal m))

def bulkWriteUnordered (pairs : List (BWCommand × ExecOutcome)) (order : List Nat) :
    Nat × Except BWThrown BulkWriteResult :=
  bulkWriteUnorderedAux pairs order BulkWriteResult.empty [] []

/-- `BulkWriteOptions` as seen at runtime: the declared
`BulkWriteUnorderedOptions` type exposes `concurrency`, while the
implementation of `Collection.bulkWrite` reads `options?.parallel`, a
field the declared type does not have; both are carried here so that the
behaviour of the implementation on typed callers can be stated. -/
structure BulkWriteOptsModel where
  ordered : Bool := false
  concurrency : Option Nat := none
  parallel : Option Nat := none
deriving Repr, DecidableEq

/-- The worker-pool size `Collection.bulkWrite` passes to
`bulkWriteUnordered`: `options?.parallel ?? 8`. -/
def bulkWriteWorkerPoolSize (opts : Option BulkWriteOptsModel) : Nat :=
  ((opts.map (·.parallel)).join).getD 8

/-! ### insertMany model

`Collection.insertMany` splits the documents into chunks of
`options?.chunkSize ?? 20` and hands the chunks to the ordered or
unordered path; each chunk is one `insertMany` command. -/

/-- The successive slices `documents.slice(i, i + chunkSize)` for
`i = 0, chunkSize, 2*chunkSize, ...`.  The source loop does not
terminate for a chunk size of `0`; that case is unreachable (the chunk
size used is `options?.chunkSize ?? 20`) and modelled as no chunks. -/
def chunksOf (k : Nat) : List α → List (List α)
  | [] => []
  | d :: ds =>
    match k with
    | 0 => []
    | kk + 1 => (d :: ds).take (kk + 1) :: chunksOf (kk + 1) ((d :: ds).drop (kk + 1))
termination_by docs => docs.length
decreasing_by
  simp only [List.length_drop, List.length_cons]
  omega

/-- Outcome of the `insertMany` command of one chunk. -/
inductive InsOutcome where
  | ok (insertedIds : List String)
  | opError (raw : RawResponse)
  | fatal (msg : String)
deriving Repr, DecidableEq

/-- The `InsertManyError` payload (`insertedIds` plus its length as
`insertedCount`), or a re-thrown non-operation error. -/
inductive InsThrown where
  | insertManyError (failedRaw : List RawResponse) (insertedIds : List String)
  | fatal (msg : String)
deriving Repr, DecidableEq

/-- Inserted ids reported inside a failing raw response
(`desc.rawResponse.status?.insertedIds ?? []`). -/
def rawInsertedIds (raw : RawResponse) : List String :=
  match raw.status with
  | some st => st.insertedIds.getD []
  | none => []

/-- `insertManyOrdered` over the chunk outcomes, with a count of the
chunk commands actually issued: chunks run sequentially; a
`DataAPIResponseError` appends the partial ids reported inside the
failing response and throws `InsertManyError` with everything inserted
so far; other errors are re-thrown unchanged; either stops the loop. -/
def insertManyOrderedAux (acc : List String) :
    List InsOutcome → Nat × Except InsThrown (List String)
  | [] => (0, .ok acc)
  | o :: rest =>
    match o with
    | .ok ids =>
      let no := insertManyOrderedAux (acc ++ ids) rest
      (no.1 + 1, no.2)
    | .opError raw => (1, .error (.insertManyError [raw] (acc ++ rawInsertedIds raw)))
    | .fatal m => (1, .error (.fatal m))

def insertManyOrderedRun (outs : List InsOutcome) : Nat × Except InsThrown (List String) :=
  insertManyOrderedAux [] outs

/-- `insertManyUnordered` over the chunk outcomes, parameterised by the
order in which the worker pool dequeues chunk indices (the shared
`masterIndex` advances by `chunkSize` atomically, so the chunk partition
is fixed and a schedule is a permutation of the chunk indices).  Chunk
failures are recorded and do not stop the other chunks; at the end the
recorded failures, if any, are aggregated into one `InsertManyError`
carrying all inserted ids. -/
def insertManyUnorderedAux (outs : List InsOutcome) :
    List Nat → List String → List RawResponse → Nat × Except InsThrown (List String)
  | [], acc, failRaw =>
    (0,
      if failRaw.length > 0 then .error (.insertManyError failRaw acc)
      else .ok acc)
  | i :: order, acc, failRaw =>
    match outs[i]? with
    | none =>
      let no := insertManyUnorderedAux outs order acc failRaw
      (no.1, no.2)
    | some o =>
      match o with
      | .ok ids =>
        let no := insertManyUnorderedAux outs order (acc ++ ids) failRaw
        (no.1 + 1, no.2)
      | .opError raw =>
        let no := insertManyUnorderedAux outs order (acc ++ rawInsertedIds raw) (failRaw ++ [raw])
        (no.1 + 1, no.2)
      | .fatal m => (1, .error (.fatal m))

def insertManyUnorderedRun (outs : List InsOutcome) (order : List Nat) :
    Nat × Except InsThrown (List String) :=
  insertManyUnorderedAux outs order [] []

/-- `InsertManyOptions` fields used by `Collection.insertMany`. -/
structure InsertManyOptsModel where
  ordered : Bool := false
  chunkSize : Option Nat := none
  parallel : Option Nat := none
deriving Repr, DecidableEq

/-- The chunk size `Collection.insertMany` uses: `options?.chunkSize ?? 20`. -/
def insertManyChunkSize (opts : Option InsertManyOptsModel) : Nat :=
  ((opts.map (·.chunkSize)).join).getD 20

/-- The chunks of documents `Collection.insertMany` hands to the ordered
or unordered path. -/
def insertManyChunks (docs : List JVal) (opts : Option InsertManyOptsModel) : List (List JVal) :=
  chunksOf (insertManyChunkSize opts) docs

/-! ### deleteMany model -/

/-- A `deleteMany` command response `status`. -/
structure DMResp where
  deletedCount : Option Nat := none
  moreData : Option Bool := none
deriving Repr, DecidableEq

/-- The message of the error `Collection.deleteMany` throws on an empty
filter (apostrophe elided from the source text). -/
def deleteManyEmptyFilterMsg : String :=
  "Cannot pass an empty filter to deleteMany, use deleteAll instead if you really want to delete everything"

/-- `Collection.deleteMany` against a scripted sequence of responses,
returning the number of `executeCommand` calls made together with the
result.  An empty filter (no keys) throws synchronously; otherwise the
command is issued repeatedly while the response reports `moreData`,
summing the deleted counts.  Running out of scripted responses is
modelled as a fatal transport error. -/
def deleteManyLoop : List DMResp → Nat → Nat → Nat × Except String Nat
  | [], sent, _ => (sent, .error "transport")
  | r :: rs, sent, acc =>
    let acc2 := acc + r.deletedCount.getD 0
    if r.moreData.getD false then deleteManyLoop rs (sent + 1) acc2
    else (sent + 1, .ok acc2)

def deleteManyModel (filterKeys : List String) (envs : List DMResp) :
    Nat × Except String Nat :=
  if filterKeys.length = 0 then (0, .error deleteManyEmptyFilterMsg)
  else deleteManyLoop envs 0 0

/-! ### Find-cursor model

Modelled from the spec: the `FindCursor` implementation is not among the
provided source files (only its integration tests are), so the cursor
data model and lifecycle follow spec sections 3 and 4.1: states
`UNINITIALIZED | INITIALIZED | CLOSED`; a buffer of unconsumed raw
documents; an opaque page token (`pageState`); a consumed count; a lazy
mapping applied at consumption time.  The remote service is modelled as
the list of pages it would return, the token being the index of the next
page. -/

inductive CursorState where
  | uninitialized
  | initialized
  | closed
deriving Repr, DecidableEq

structure FindCursor where
  filter : JVal
  options : JVal
  mapping : JVal → JVal
  state : CursorState := .uninitialized
  buffer : List JVal := []
  pageState : Option Nat := none
  consumed : Nat := 0

/-- Modelled from the spec: a fresh cursor as produced by the `find`
factory — `UNINITIALIZED`, empty buffer, no page token, nothing
consumed. -/
def FindCursor.fresh (filter options : JVal) (mapping : JVal → JVal) : FindCursor :=
  { filter := filter, options := options, mapping := mapping }

/-- Modelled from the spec: the pages the remote service still has for
this cursor.  `UNINITIALIZED` starts from the first page; `INITIALIZED`
resumes at the stored token, or has no pages left when the token is
absent; `CLOSED` never fetches. -/
def FindCursor.remainingPages (c : FindCursor) (pages : List (List JVal)) : List (List JVal) :=
  match c.state with
  | .closed => []
  | .uninitialized => pages
  | .initialized =>
    match c.pageState with
    | some t => pages.drop t
    | none => []

/-- Modelled from the spec: `toArray()` — on a `CLOSED` cursor, returns
`[]` without contacting the service; otherwise drains the buffer and all
remaining pages, applying the mapping at consumption, and closes the
cursor. -/
def FindCursor.toArray (c : FindCursor) (pages : List (List JVal)) :
    List JVal × FindCursor :=
  match c.state with
  | .closed => ([], c)
  | _ =>
    let docs := c.buffer ++ (c.remainingPages pages).flatten
    (docs.map c.mapping,
      { c with
        state := .closed
        buffer := []
        pageState := none
        consumed := c.consumed + docs.length })

/-- Modelled from the spec: `rewind()` resets buffer, `pageState`,
`consumed`, and state back to `UNINITIALIZED`, preserving filter, options
and mapping. -/
def FindCursor.rewind (c : FindCursor) : FindCursor :=
  { c with state := .uninitialized, buffer := [], pageState := none, consumed := 0 }

/-! ### Derived accumulator descriptions

These definitions restate, for use in theorem statements, what the
orchestrator accumulates: the per-response counter deltas and the folds
of `addToBulkWriteResult` over a run. -/

def stInsDelta (st : BWStatus) : Nat := (st.insertedIds.getD []).length

def stMatchedDelta (st : BWStatus) : Nat := st.matchedCount.getD 0

def stModifiedDelta (st : BWStatus) : Nat := st.modifiedCount.getD 0

def stDeletedDelta (st : BWStatus) : Nat := st.deletedCount.getD 0

def stUpsertDelta (st : BWStatus) : Nat := if jsTruthyId st.upsertedId then 1 else 0

/-- Fold a consecutive run of response statuses into the accumulator,
indexing from `i0`. -/
def foldStatuses (i0 : Nat) (r : BulkWriteResult) : List BWStatus → BulkWriteResult
  | [] => r
  | st :: rest => foldStatuses (i0 + 1) (addToBulkWriteResult r st i0) rest

/-- Fold the partial `status` carried inside a failing raw response, when
present, into the accumulator. -/
def applyRawStatus (r : BulkWriteResult) (raw : RawResponse) (i : Nat) : BulkWriteResult :=
  match raw.status with
  | some st => addToBulkWriteResult r st i
  | none => r

/-- The response `status` that operation `i` contributes to the
accumulator: the status of a 2XX response, or the partial status inside a
`DataAPIResponseError` raw response. -/
def outcomeStatusAt (pairs : List (BWCommand × ExecOutcome)) (i : Nat) : Option BWStatus :=
  match pairs[i]? with
  | some (_, .ok st) => some st
  | some (_, .opError raw) => raw.status
  | _ => none

def optDelta (f : BWStatus → Nat) : Option BWStatus → Nat
  | some st => f st
  | none => 0

/-- The effect of one scheduled index on the accumulator in an unordered run. -/
def unorderedStep (pairs : List (BWCommand × ExecOutcome)) (acc : BulkWriteResult) (i : Nat) :
    BulkWriteResult :=
  match outcomeStatusAt pairs i with
  | some st => addToBulkWriteResult acc st i
  | none => acc

/-- The accumulator of an unordered run over a schedule of indices. -/
def unorderedAccum (pairs : List (BWCommand × ExecOutcome)) (order : List Nat)
    (r : BulkWriteResult) : BulkWriteResult :=
  order.foldl (unorderedStep pairs) r

/-- The failing command and raw response recorded for operation `i`, when
its outcome was a `DataAPIResponseError`. -/
def failsAt (pairs : List (BWCommand × ExecOutcome)) (i : Nat) :
    Option (BWCommand × RawResponse) :=
  match pairs[i]? with
  | some (c, .opError raw) => some (c, raw)
  | _ => none

/-- The failures an unordered run records, in schedule order. -/
def failures (pairs : List (BWCommand × ExecOutcome)) (order : List Nat) :
    List (BWCommand × RawResponse) :=
  order.filterMap (failsAt pairs)

/-! ### Helper lemmas: path extractor -/

theorem extract_falsy (path : List String) (v : JVal) (h : jsFalsy v = true) :
    extract path v = [] := by
  rw [extract.eq_def]
  simp [h]

theorem extract_fanout (p : String) (rest : List String) (xs : List JVal)
    (hp : parseIntJS p = none) :
    extract (p :: rest) (.arr xs) = (xs.map (extract (p :: rest))).flatten := by
  rw [extract]
  simp [jsFalsy, hp, List.attach_map_coe]

theorem extract_index_lt (p : String) (rest : List String) (xs : List JVal) (k : Int)
    (hp : parseIntJS p = some k) (h0 : 0 ≤ k) (h : k.toNat < xs.length) :
    extract (p :: rest) (.arr xs) = extract rest (xs.get ⟨k.toNat, h⟩) := by
  rw [extract]
  simp only [jsFalsy, hp, Bool.false_eq_true, if_false]
  rw [dif_pos ⟨h0, h⟩]

theorem extract_index_ge (p : String) (rest : List String) (xs : List JVal) (k : Int)
    (hp : parseIntJS p = some k) (h : xs.length ≤ k.toNat) :
    extract (p :: rest) (.arr xs) = [] := by
  rw [extract]
  simp only [jsFalsy, hp, Bool.false_eq_true, if_false]
  rw [dif_neg]
  intro hc
  omega

theorem extract_obj (p : String) (rest : List String) (fields : List (String × JVal)) :
    extract (p :: rest) (.obj fields) = extract rest (objGet fields p) := by
  rw [extract]
  simp [jsFalsy]

theorem extract_nil_arr (xs : List JVal) : extract [] (.arr xs) = xs := by
  rw [extract]
  simp [jsFalsy]

theorem extract_nil_scalar (v : JVal) (hf : jsFalsy v = false) (ha : ∀ xs, v ≠ .arr xs) :
    extract [] v = [v] := by
  cases v with
  | arr xs => exact absurd rfl (ha xs)
  | null => simp [jsFalsy] at hf
  | bool b =>
    rw [extract]
    · simp [jsFalsy] at hf
      simp [jsFalsy, hf]
    · exact ha
  | num n =>
    rw [extract]
    · simp [jsFalsy] at hf
      simp [jsFalsy, hf]
    · exact ha
  | str s =>
    rw [extract]
    · simp [jsFalsy] at hf
      simp [jsFalsy, hf]
    · exact ha
  | obj fs =>
    rw [extract]
    · simp [jsFalsy]
    · exact ha

theorem beqList_refl_of (l : List JVal) (h : ∀ x ∈ l, JVal.beq x x = true) :
    JVal.beq.beqList l l = true := by
  induction l with
  | nil => rfl
  | cons a as ih =>
    show (JVal.beq a a && JVal.beq.beqList as as) = true
    rw [Bool.and_eq_true]
    exact ⟨h a (List.mem_cons_self a as), ih (fun x hx => h x (List.mem_cons_of_mem a hx))⟩

theorem beqFields_refl_of (l : List (String × JVal)) (h : ∀ p ∈ l, JVal.beq p.2 p.2 = true) :
    JVal.beq.beqFields l l = true := by
  induction l with
  | nil => rfl
  | cons a as ih =>
    obtain ⟨k, v⟩ := a
    show (k == k && JVal.beq v v && JVal.beq.beqFields as as) = true
    simp only [Bool.and_eq_true, beq_self_eq_true, true_and]
    exact ⟨h (k, v) (List.mem_cons_self _ as), ih (fun p hp => h p (List.mem_cons_of_mem _ hp))⟩

theorem JVal.beq_refl (v : JVal) : JVal.beq v v = true := by
  have H : ∀ n, ∀ v : JVal, sizeOf v ≤ n → JVal.beq v v = true := by
    intro n
    induction n with
    | zero =>
      intro v hv
      exfalso
      cases v <;> simp_arith at hv
    | succ n ih =>
      intro v hv
      cases v with
      | null => rfl
      | bool b => simp [JVal.beq]
      | num m => simp [JVal.beq]
      | str s => simp [JVal.beq]
      | arr xs =>
        show JVal.beq.beqList xs xs = true
        apply beqList_refl_of
        intro x hx
        have h1 := List.sizeOf_lt_of_mem hx
        have h2 : sizeOf (JVal.arr xs) = 1 + sizeOf xs := by simp
        exact ih x (by omega)
      | obj fs =>
        show JVal.beq.beqFields fs fs = true
        apply beqFields_refl_of
        intro p hp
        have h1 := List.sizeOf_lt_of_mem hp
        have h2 : sizeOf (JVal.obj fs) = 1 + sizeOf fs := by simp
        have h3 : sizeOf p.2 < sizeOf p := by
          obtain ⟨a, b⟩ := p
          simp only [Prod.mk.sizeOf_spec]
          omega
        exact ih p.2 (by omega)
  exact H (sizeOf v) v le_rfl

/-! ### Helper lemmas: deduplication in `distinct` -/

theorem seenHas_cons (w v : JVal) (seen : List JVal) :
    seenHas (w :: seen) v = (JVal.beq w v || seenHas seen v) := by
  simp [seenHas]

theorem seenHas_self_cons (v : JVal) (seen : List JVal) :
    seenHas (v :: seen) v = true := by
  rw [seenHas_cons, JVal.beq_refl, Bool.true_or]

theorem dedupInto_append (seen ret : List JVal) (xs ys : List JVal) :
    dedupInto seen ret (xs ++ ys) =
      dedupInto (dedupInto seen ret xs).1 (dedupInto seen ret xs).2 ys := by
  induction xs generalizing seen ret with
  | nil => rfl
  | cons x xs ih =>
    rw [List.cons_append, dedupInto, dedupInto]
    by_cases hx : seenHas seen x
    · rw [if_pos hx, if_pos hx, ih]
    · rw [if_neg hx, if_neg hx, ih]

theorem dedupInto_seen_mono (seen ret vs : List JVal) (v : JVal)
    (h : seenHas seen v = true) : seenHas (dedupInto seen ret vs).1 v = true := by
  induction vs generalizing seen ret with
  | nil => exact h
  | cons w ws ih =>
    rw [dedupInto]
    by_cases hw : seenHas seen w
    · rw [if_pos hw]
      exact ih _ _ h
    · rw [if_neg hw]
      exact ih _ _ (by rw [seenHas_cons, h, Bool.or_true])

theorem dedupInto_seen_of_mem (seen ret vs : List JVal) (v : JVal)
    (h : v ∈ vs) : seenHas (dedupInto seen ret vs).1 v = true := by
  induction vs generalizing seen ret with
  | nil => cases h
  | cons w ws ih =>
    rw [dedupInto]
    rcases List.mem_cons.mp h with rfl | hmem
    · by_cases hw : seenHas seen v
      · rw [if_pos hw]
        exact dedupInto_seen_mono _ _ _ _ hw
      · rw [if_neg hw]
        exact dedupInto_seen_mono _ _ _ _ (seenHas_self_cons v seen)
    · by_cases hw : seenHas seen w
      · rw [if_pos hw]
        exact ih _ _ hmem
      · rw [if_neg hw]
        exact ih _ _ hmem

theorem dedupInto_noop (seen ret vs : List JVal)
    (h : ∀ v ∈ vs, seenHas seen v = true) : dedupInto seen ret vs = (seen, ret) := by
  induction vs with
  | nil => rfl
  | cons w ws ih =>
    rw [dedupInto, if_pos (h w (List.mem_cons_self w ws))]
    exact ih (fun v hv => h v (List.mem_cons_of_mem w hv))

theorem dedupInto_ret_sub (seen ret vs : List JVal) (v : JVal)
    (h : v ∈ (dedupInto seen ret vs).2) : v ∈ ret ∨ v ∈ vs := by
  induction vs generalizing seen ret with
  | nil => exact .inl h
  | cons w ws ih =>
    rw [dedupInto] at h
    by_cases hw : seenHas seen w
    · rw [if_pos hw] at h
      rcases ih _ _ h with hr | hv
      · exact .inl hr
      · exact .inr (List.mem_cons_of_mem w hv)
    · rw [if_neg hw] at h
      rcases ih _ _ h with hr | hv
      · rcases List.mem_append.mp hr with hr2 | hr2
        · exact .inl hr2
        · exact .inr (by simp at hr2; simp [hr2])
      · exact .inr (List.mem_cons_of_mem w hv)

/-- The document loop of `distinct` with the stateful extractor computes
the same result as deduplicating the concatenation of pure per-document
extractions: the values re-presented from earlier documents are already
in the seen set, so re-processing them is a no-op. -/
theorem distinctGo_eq_pure (p : List String) (ds : List JVal)
    (values seen ret : List JVal)
    (hinv : ∀ v ∈ values, seenHas seen v = true) :
    distinctGo p values seen ret ds =
      (dedupInto seen ret ((ds.map (extract p)).flatten)).2 := by
  induction ds generalizing values seen ret with
  | nil => rfl
  | cons d ds ih =>
    rw [distinctGo]
    have hsplit : dedupInto seen ret (values ++ extract p d)
        = dedupInto seen ret (extract p d) := by
      rw [dedupInto_append, dedupInto_noop seen ret values hinv]
    rw [hsplit]
    have hinv2 : ∀ v ∈ values ++ extract p d,
        seenHas (dedupInto seen ret (extract p d)).1 v = true := by
      intro v hv
      rcases List.mem_append.mp hv with h1 | h2
      · exact dedupInto_seen_mono _ _ _ _ (hinv v h1)
      · exact dedupInto_seen_of_mem _ _ _ _ h2
    rw [ih _ _ _ hinv2]
    rw [List.map_cons, List.flatten_cons, dedupInto_append]

theorem distinctRun_eq_pure (pathStr : String) (docs : List JVal) :
    distinctRun pathStr docs = distinctPure pathStr docs := by
  rw [distinctRun, distinctPure]
  rw [distinctGo_eq_pure _ _ _ _ _ (by intro v hv; cases hv)]
  rfl

theorem extractorOutputs_go_eq (pathStr : String) (ds : List JVal) (values : List JVal) :
    extractorOutputs.go pathStr values ds =
      (List.range ds.length).map
        (fun k => values ++ ((ds.take (k + 1)).map (extractVals pathStr)).flatten) := by
  induction ds generalizing values with
  | nil => rfl
  | cons d ds ih =>
    rw [extractorOutputs.go, ih]
    rw [List.length_cons, List.range_succ_eq_map, List.map_cons]
    congr 1
    · simp
    · rw [List.map_map]
      apply List.map_congr_left
      intro k _
      simp [List.take_cons, List.append_assoc]

/-- Every array anywhere inside `v = .arr xs` has truthy elements iff each
element is truthy and recursively array-truthy. -/
theorem arraysTruthy_arr (xs : List JVal) :
    arraysTruthy (.arr xs) = true ↔ ∀ x ∈ xs, jsFalsy x = false ∧ arraysTruthy x = true := by
  rw [arraysTruthy]
  rw [List.all_eq_true]
  constructor
  · intro h x hx
    have := h ⟨x, hx⟩ (List.mem_attach xs ⟨x, hx⟩)
    simp only [Bool.and_eq_true, Bool.not_eq_true'] at this
    exact this
  · intro h z _
    obtain ⟨x, hx⟩ := z
    simp only [Bool.and_eq_true, Bool.not_eq_true']
    exact h x hx

theorem arraysTruthy_obj (fs : List (String × JVal)) :
    arraysTruthy (.obj fs) = true ↔ ∀ p ∈ fs, arraysTruthy p.2 = true := by
  rw [arraysTruthy]
  rw [List.all_eq_true]
  constructor
  · intro h p hp
    exact h ⟨p, hp⟩ (List.mem_attach fs ⟨p, hp⟩)
  · intro h z _
    obtain ⟨p, hp⟩ := z
    exact h p hp

theorem arraysTruthy_objGet (fs : List (String × JVal)) (k : String)
    (h : arraysTruthy (.obj fs) = true) : arraysTruthy (objGet fs k) = true := by
  unfold objGet
  cases hf : fs.find? (fun kv => kv.1 == k) with
  | none =>
    show arraysTruthy JVal.null = true
    rw [arraysTruthy]
    · intro xs hxs
      cases hxs
    · intro fields hfields
      cases hfields
  | some kv => exact (arraysTruthy_obj fs).mp h kv (List.mem_of_find?_eq_some hf)

/-- When every array in the document has only truthy elements, every value
the extractor emits is truthy: the only unguarded emission is the one-level
flatten of a terminal array. -/
theorem extract_truthy_of_arraysTruthy (path : List String) (doc : JVal)
    (hdoc : arraysTruthy doc = true) :
    ∀ v ∈ extract path doc, jsFalsy v = false := by
  have H : ∀ n, ∀ (path : List String) (doc : JVal), sizeOf doc ≤ n →
      arraysTruthy doc = true → ∀ v ∈ extract path doc, jsFalsy v = false := by
    intro n
    induction n with
    | zero =>
      intro _ doc hsz
      exfalso
      cases doc <;> simp_arith at hsz
    | succ n ih =>
      intro path doc hsz hat v hv
      by_cases hf : jsFalsy doc
      · rw [extract_falsy _ _ hf] at hv
        cases hv
      · cases path with
        | nil =>
          cases doc with
          | arr xs =>
            rw [extract_nil_arr] at hv
            exact ((arraysTruthy_arr xs).mp hat v hv).1
          | null => simp [jsFalsy] at hf
          | bool b =>
            rw [extract_nil_scalar _ (by simpa using hf) (by intro xs h; cases h)] at hv
            rcases List.mem_singleton.mp hv with rfl
            simpa using hf
          | num m =>
            rw [extract_nil_scalar _ (by simpa using hf) (by intro xs h; cases h)] at hv
            rcases List.mem_singleton.mp hv with rfl
            simpa using hf
          | str s =>
            rw [extract_nil_scalar _ (by simpa using hf) (by intro xs h; cases h)] at hv
            rcases List.mem_singleton.mp hv with rfl
            simpa using hf
          | obj fs =>
            rw [extract_nil_scalar _ (by simpa using hf) (by intro xs h; cases h)] at hv
            rcases List.mem_singleton.mp hv with rfl
            simpa using hf
        | cons p rest =>
          cases doc with
          | arr xs =>
            have hszxs : sizeOf (JVal.arr xs) = 1 + sizeOf xs := by simp
            cases hp : parseIntJS p with
            | none =>
              rw [extract_fanout _ _ _ hp] at hv
              rw [List.mem_flatten] at hv
              obtain ⟨l, hl, hvl⟩ := hv
              rw [List.mem_map] at hl
              obtain ⟨x, hx, rfl⟩ := hl
              have hx1 := List.sizeOf_lt_of_mem hx
              exact ih (p :: rest) x (by omega)
                ((arraysTruthy_arr xs).mp hat x hx).2 v hvl
            | some k =>
              by_cases hk : 0 ≤ k ∧ k.toNat < xs.length
              · rw [extract_index_lt _ _ _ _ hp hk.1 hk.2] at hv
                have hmem := xs.get_mem k.toNat hk.2
                have hx1 := List.sizeOf_lt_of_mem hmem
                exact ih rest _ (by omega)
                  ((arraysTruthy_arr xs).mp hat _ hmem).2 v hv
              · rw [extract.eq_def] at hv
                simp only [jsFalsy, Bool.false_eq_true, if_false, hp] at hv
                rw [dif_neg hk] at hv
                cases hv
          | obj fs =>
            rw [extract_obj] at hv
            have hszo : sizeOf (JVal.obj fs) = 1 + sizeOf fs := by simp
            have hlt : sizeOf (objGet fs p) < 1 + sizeOf fs := by
              unfold objGet
              cases hfind : fs.find? (fun kv => kv.1 == p) with
              | none =>
                have h0 : sizeOf JVal.null = 1 := rfl
                have h1 : 1 ≤ sizeOf fs := by cases fs <;> simp_arith
                show sizeOf JVal.null < 1 + sizeOf fs
                omega
              | some kv =>
                have hmem : kv ∈ fs := List.mem_of_find?_eq_some hfind
                have h1 : sizeOf kv < sizeOf fs := List.sizeOf_lt_of_mem hmem
                have h2 : sizeOf kv.2 < sizeOf kv := by
                  obtain ⟨a, b⟩ := kv
                  simp only [Prod.mk.sizeOf_spec]
                  omega
                show sizeOf kv.2 < 1 + sizeOf fs
                omega
            exact ih rest _ (by omega) (arraysTruthy_objGet fs p hat) v hv
          | null => simp [jsFalsy] at hf
          | bool b =>
            rw [extract.eq_def] at hv
            simp only [Bool.not_eq_true] at hf
            simp [hf] at hv
          | num m =>
            rw [extract.eq_def] at hv
            simp only [Bool.not_eq_true] at hf
            simp [hf] at hv
          | str s =>
            rw [extract.eq_def] at hv
            simp only [Bool.not_eq_true] at hf
            simp [hf] at hv
  exact H (sizeOf doc) path doc le_rfl hdoc

/-! ### Helper lemmas: bulk-write orchestrator -/

theorem addToBulkWriteResult_spec (r : BulkWriteResult) (st : BWStatus) (i : Nat) :
    (addToBulkWriteResult r st i).insertedCount = r.insertedCount + stInsDelta st ∧
    (addToBulkWriteResult r st i).matchedCount = r.matchedCount + stMatchedDelta st ∧
    (addToBulkWriteResult r st i).modifiedCount = r.modifiedCount + stModifiedDelta st ∧
    (addToBulkWriteResult r st i).deletedCount = r.deletedCount + stDeletedDelta st ∧
    (addToBulkWriteResult r st i).upsertedCount = r.upsertedCount + stUpsertDelta st ∧
    (addToBulkWriteResult r st i).upsertedIds =
      r.upsertedIds ++
        (if jsTruthyId st.upsertedId then [(i, st.upsertedId.getD "")] else []) := by
  unfold addToBulkWriteResult
  by_cases h : jsTruthyId st.upsertedId
  · simp [h, stInsDelta, stMatchedDelta, stModifiedDelta, stDeletedDelta, stUpsertDelta]
  · simp [h, stInsDelta, stMatchedDelta, stModifiedDelta, stDeletedDelta, stUpsertDelta]

theorem foldStatuses_counts (sts : List BWStatus) (i0 : Nat) (r : BulkWriteResult) :
    (foldStatuses i0 r sts).insertedCount = r.insertedCount + (sts.map stInsDelta).sum ∧
    (foldStatuses i0 r sts).matchedCount = r.matchedCount + (sts.map stMatchedDelta).sum ∧
    (foldStatuses i0 r sts).modifiedCount = r.modifiedCount + (sts.map stModifiedDelta).sum ∧
    (foldStatuses i0 r sts).deletedCount = r.deletedCount + (sts.map stDeletedDelta).sum ∧
    (foldStatuses i0 r sts).upsertedCount = r.upsertedCount + (sts.map stUpsertDelta).sum := by
  induction sts generalizing i0 r with
  | nil => simp [foldStatuses]
  | cons st sts ih =>
    rw [foldStatuses]
    obtain ⟨h1, h2, h3, h4, h5⟩ := ih (i0 + 1) (addToBulkWriteResult r st i0)
    obtain ⟨a1, a2, a3, a4, a5, _⟩ := addToBulkWriteResult_spec r st i0
    refine ⟨?_, ?_, ?_, ?_, ?_⟩ <;> simp [h1, h2, h3, h4, h5, a1, a2, a3, a4, a5] <;> omega

theorem jsTruthyId_some (o : Option String) (h : jsTruthyId o = true) :
    o = some (o.getD "") := by
  cases o with
  | none => simp [jsTruthyId] at h
  | some s => rfl

theorem foldStatuses_upsertedIds_mem (sts : List BWStatus) (i0 : Nat) (r : BulkWriteResult)
    (i : Nat) (s : String) :
    (i, s) ∈ (foldStatuses i0 r sts).upsertedIds ↔
      (i, s) ∈ r.upsertedIds ∨
        ∃ j st, sts[j]? = some st ∧ i = i0 + j ∧
          jsTruthyId st.upsertedId = true ∧ st.upsertedId = some s := by
  induction sts generalizing i0 r with
  | nil =>
    simp only [foldStatuses]
    constructor
    · intro h
      exact .inl h
    · intro h
      rcases h with h | ⟨j, st, hj, _⟩
      · exact h
      · simp at hj
  | cons st sts ih =>
    rw [foldStatuses, ih]
    obtain ⟨_, _, _, _, _, hup⟩ := addToBulkWriteResult_spec r st i0
    rw [hup]
    constructor
    · intro h
      rcases h with h | ⟨j, st2, hj, hi, ht, hs⟩
      · rcases List.mem_append.mp h with h2 | h2
        · exact .inl h2
        · by_cases htr : jsTruthyId st.upsertedId
          · rw [if_pos htr] at h2
            have heq := List.mem_singleton.mp h2
            have hi : i = i0 := congrArg Prod.fst heq
            have hs : s = st.upsertedId.getD "" := congrArg Prod.snd heq
            refine .inr ⟨0, st, by simp, by omega, htr, ?_⟩
            rw [hs]
            exact jsTruthyId_some _ htr
          · rw [if_neg htr] at h2
            cases h2
      · exact .inr ⟨j + 1, st2, by simpa using hj, by omega, ht, hs⟩
    · intro h
      rcases h with h | ⟨j, st2, hj, hi, ht, hs⟩
      · exact .inl (List.mem_append.mpr (.inl h))
      · cases j with
        | zero =>
          left
          apply List.mem_append.mpr
          right
          have hst : st = st2 := by simpa using hj
          subst hst
          rw [if_pos ht]
          have := jsTruthyId_some _ ht
          rw [this] at hs
          have hs2 : st.upsertedId.getD "" = s := by
            injection hs
          simp [List.mem_singleton]
          constructor
          · omega
          · exact hs2.symm
        | succ j =>
          exact .inr ⟨j, st2, by simpa using hj, by omega, ht, hs⟩

theorem bulkWriteOrderedAux_all_ok (scs : List (BWCommand × BWStatus)) (i : Nat)
    (r : BulkWriteResult) :
    bulkWriteOrderedAux i r (scs.map (fun sc => (sc.1, ExecOutcome.ok sc.2))) =
      (scs.length, .ok (foldStatuses i r (scs.map Prod.snd))) := by
  induction scs generalizing i r with
  | nil => rfl
  | cons sc scs ih =>
    rw [List.map_cons, bulkWriteOrderedAux, ih, List.map_cons, foldStatuses]
    rfl

theorem bulkWriteOrderedAux_stop (scs : List (BWCommand × BWStatus)) (cmd : BWCommand)
    (raw : RawResponse) (post : List (BWCommand × ExecOutcome)) (i : Nat)
    (r : BulkWriteResult) :
    bulkWriteOrderedAux i r
        (scs.map (fun sc => (sc.1, ExecOutcome.ok sc.2)) ++ (cmd, .opError raw) :: post) =
      (scs.length + 1,
        .error (.bulkWriteError
          ⟨[cmd], [raw],
            applyRawStatus (foldStatuses i r (scs.map Prod.snd)) raw (i + scs.length)⟩)) := by
  induction scs generalizing i r with
  | nil =>
    rw [List.map_nil, List.nil_append, bulkWriteOrderedAux]
    simp [applyRawStatus, foldStatuses]
  | cons sc scs ih =>
    rw [List.map_cons, List.cons_append, bulkWriteOrderedAux, ih, List.map_cons, foldStatuses]
    have harith : i + (sc :: scs).length = i + 1 + scs.length := by
      simp only [List.length_cons]
      omega
    rw [harith]
    simp

theorem bulkWriteOrderedAux_fatal (scs : List (BWCommand × BWStatus)) (cmd : BWCommand)
    (m : String) (post : List (BWCommand × ExecOutcome)) (i : Nat) (r : BulkWriteResult) :
    bulkWriteOrderedAux i r
        (scs.map (fun sc => (sc.1, ExecOutcome.ok sc.2)) ++ (cmd, .fatal m) :: post) =
      (scs.length + 1, .error (.fatal m)) := by
  induction scs generalizing i r with
  | nil => rfl
  | cons sc scs ih =>
    rw [List.map_cons, List.cons_append, bulkWriteOrderedAux, ih]
    simp

theorem bulkWriteUnorderedAux_no_fatal (pairs : List (BWCommand × ExecOutcome))
    (order : List Nat) (r : BulkWriteResult) (fc : List BWCommand) (fr : List RawResponse)
    (hnf : ∀ i ∈ order, ∀ p, pairs[i]? = some p → ∀ m, p.2 ≠ ExecOutcome.fatal m) :
    bulkWriteUnorderedAux pairs order r fc fr =
      ((order.filter (fun i => (pairs[i]?).isSome)).length,
        if (fc ++ (failures pairs order).map Prod.fst).length > 0 then
          .error (.bulkWriteError
            ⟨fc ++ (failures pairs order).map Prod.fst,
              fr ++ (failures pairs order).map Prod.snd,
              unorderedAccum pairs order r⟩)
        else .ok (unorderedAccum pairs order r)) := by
  induction order generalizing r fc fr with
  | nil => simp [bulkWriteUnorderedAux, failures, unorderedAccum]
  | cons i order ih =>
    have hnf2 : ∀ j ∈ order, ∀ p, pairs[j]? = some p → ∀ m, p.2 ≠ ExecOutcome.fatal m :=
      fun j hj => hnf j (List.mem_cons_of_mem i hj)
    rw [bulkWriteUnorderedAux]
    cases hp : pairs[i]? with
    | none =>
      rw [ih _ _ _ hnf2]
      have hfa : failsAt pairs i = none := by simp [failsAt, hp]
      simp [failures, List.filterMap_cons, hfa, unorderedAccum, unorderedStep,
        outcomeStatusAt, hp, List.filter_cons]
    | some p =>
      obtain ⟨c, o⟩ := p
      cases o with
      | ok st =>
        have hrec := ih (addToBulkWriteResult r st i) fc fr hnf2
        have hfa : failsAt pairs i = none := by simp [failsAt, hp]
        simp only [hrec]
        simp [failures, List.filterMap_cons, hfa, unorderedAccum, unorderedStep,
          outcomeStatusAt, hp, List.filter_cons]
      | opError raw =>
        have heq :
            (match raw.status with
              | some st => addToBulkWriteResult r st i
              | none => r) = unorderedStep pairs r i := by
          simp [unorderedStep, outcomeStatusAt, hp]
        have hrec := ih (unorderedStep pairs r i) (fc ++ [c]) (fr ++ [raw]) hnf2
        simp only [heq, hrec]
        have hfa : failsAt pairs i = some (c, raw) := by simp [failsAt, hp]
        simp only [failures, List.filterMap_cons, hfa, unorderedAccum, List.foldl_cons,
          List.filter_cons, hp, Option.isSome_some, if_true, List.map_cons,
          List.length_cons, List.length_append, List.map_map, List.length_nil]
        rw [if_pos (by omega), if_pos (by simp)]
        simp [List.append_assoc]
      | fatal m => exact absurd rfl (hnf i (List.mem_cons_self i order) (c, .fatal m) hp m)

theorem bulkWriteUnorderedAux_fatal (pairs : List (BWCommand × ExecOutcome))
    (o1 : List Nat) (j : Nat) (o2 : List Nat) (c : BWCommand) (m : String)
    (r : BulkWriteResult) (fc : List BWCommand) (fr : List RawResponse)
    (hj : pairs[j]? = some (c, .fatal m))
    (h1 : ∀ i ∈ o1, ∀ p, pairs[i]? = some p → ∀ m2, p.2 ≠ ExecOutcome.fatal m2) :
    (bulkWriteUnorderedAux pairs (o1 ++ j :: o2) r fc fr).2 = .error (.fatal m) := by
  induction o1 generalizing r fc fr with
  | nil =>
    rw [List.nil_append, bulkWriteUnorderedAux, hj]
  | cons i o1 ih =>
    have h2 : ∀ a ∈ o1, ∀ p, pairs[a]? = some p → ∀ m2, p.2 ≠ ExecOutcome.fatal m2 :=
      fun a ha => h1 a (List.mem_cons_of_mem i ha)
    rw [List.cons_append, bulkWriteUnorderedAux]
    cases hp : pairs[i]? with
    | none => exact ih _ _ _ h2
    | some p =>
      obtain ⟨c2, o⟩ := p
      cases o with
      | ok st => exact ih _ _ _ h2
      | opError raw => exact ih _ _ _ h2
      | fatal m2 => exact absurd rfl (h1 i (List.mem_cons_self i o1) (c2, .fatal m2) hp m2)

theorem unorderedAccum_counts (pairs : List (BWCommand × ExecOutcome)) (order : List Nat)
    (r : BulkWriteResult) :
    (unorderedAccum pairs order r).insertedCount =
      r.insertedCount + (order.map (fun i => optDelta stInsDelta (outcomeStatusAt pairs i))).sum ∧
    (unorderedAccum pairs order r).matchedCount =
      r.matchedCount + (order.map (fun i => optDelta stMatchedDelta (outcomeStatusAt pairs i))).sum ∧
    (unorderedAccum pairs order r).modifiedCount =
      r.modifiedCount + (order.map (fun i => optDelta stModifiedDelta (outcomeStatusAt pairs i))).sum ∧
    (unorderedAccum pairs order r).deletedCount =
      r.deletedCount + (order.map (fun i => optDelta stDeletedDelta (outcomeStatusAt pairs i))).sum ∧
    (unorderedAccum pairs order r).upsertedCount =
      r.upsertedCount + (order.map (fun i => optDelta stUpsertDelta (outcomeStatusAt pairs i))).sum := by
  induction order generalizing r with
  | nil => simp [unorderedAccum]
  | cons i order ih =>
    have hstep : unorderedAccum pairs (i :: order) r =
        unorderedAccum pairs order (unorderedStep pairs r i) := rfl
    rw [hstep]
    cases ho : outcomeStatusAt pairs i with
    | none =>
      have hs : unorderedStep pairs r i = r := by simp [unorderedStep, ho]
      rw [hs]
      obtain ⟨h1, h2, h3, h4, h5⟩ := ih r
      refine ⟨?_, ?_, ?_, ?_, ?_⟩ <;> simp [h1, h2, h3, h4, h5, ho, optDelta]
    | some st =>
      have hs : unorderedStep pairs r i = addToBulkWriteResult r st i := by
        simp [unorderedStep, ho]
      rw [hs]
      obtain ⟨h1, h2, h3, h4, h5⟩ := ih (addToBulkWriteResult r st i)
      obtain ⟨a1, a2, a3, a4, a5, _⟩ := addToBulkWriteResult_spec r st i
      refine ⟨?_, ?_, ?_, ?_, ?_⟩ <;>
        simp [h1, h2, h3, h4, h5, a1, a2, a3, a4, a5, ho, optDelta] <;> omega

theorem unorderedAccum_upsertedIds_mem (pairs : List (BWCommand × ExecOutcome))
    (order : List Nat) (r : BulkWriteResult) (i : Nat) (s : String) :
    (i, s) ∈ (unorderedAccum pairs order r).upsertedIds ↔
      (i, s) ∈ r.upsertedIds ∨
        (i ∈ order ∧ ∃ st, outcomeStatusAt pairs i = some st ∧
          jsTruthyId st.upsertedId = true ∧ st.upsertedId = some s) := by
  induction order generalizing r with
  | nil => simp [unorderedAccum]
  | cons j order ih =>
    have hstep : unorderedAccum pairs (j :: order) r =
        unorderedAccum pairs order (unorderedStep pairs r j) := rfl
    rw [hstep, ih]
    cases ho : outcomeStatusAt pairs j with
    | none =>
      have hs : unorderedStep pairs r j = r := by simp [unorderedStep, ho]
      rw [hs]
      constructor
      · intro h
        rcases h with h | ⟨hmem, hst⟩
        · exact .inl h
        · exact .inr ⟨List.mem_cons_of_mem j hmem, hst⟩
      · intro h
        rcases h with h | ⟨hmem, st, hst, ht, hsome⟩
        · exact .inl h
        · rcases List.mem_cons.mp hmem with rfl | hmem2
          · rw [ho] at hst
            cases hst
          · exact .inr ⟨hmem2, st, hst, ht, hsome⟩
    | some st =>
      have hs : unorderedStep pairs r j = addToBulkWriteResult r st j := by
        simp [unorderedStep, ho]
      rw [hs]
      obtain ⟨_, _, _, _, _, hup⟩ := addToBulkWriteResult_spec r st j
      rw [hup]
      constructor
      · intro h
        rcases h with h | ⟨hmem, hst⟩
        · rcases List.mem_append.mp h with h2 | h2
          · exact .inl h2
          · by_cases htr : jsTruthyId st.upsertedId
            · rw [if_pos htr] at h2
              have heq := List.mem_singleton.mp h2
              have hi : i = j := congrArg Prod.fst heq
              have hsv : s = st.upsertedId.getD "" := congrArg Prod.snd heq
              subst hi
              refine .inr ⟨List.mem_cons_self _ _, st, ho, htr, ?_⟩
              rw [hsv]
              exact jsTruthyId_some _ htr
            · rw [if_neg htr] at h2
              cases h2
        · exact .inr ⟨List.mem_cons_of_mem j hmem, hst⟩
      · intro h
        rcases h with h | ⟨hmem, st2, hst2, ht, hsome⟩
        · exact .inl (List.mem_append.mpr (.inl h))
        · rcases List.mem_cons.mp hmem with rfl | hmem2
          · left
            apply List.mem_append.mpr
            right
            rw [ho] at hst2
            have hst : st = st2 := by injection hst2
            subst hst
            rw [if_pos ht]
            have := jsTruthyId_some _ ht
            rw [this] at hsome
            have hs2 : st.upsertedId.getD "" = s := by injection hsome
            simp [hs2]
          · exact .inr ⟨hmem2, st2, hst2, ht, hsome⟩

/-! ### Helper lemmas: insertMany chunking -/

theorem chunksOf_flatten (k : Nat) (hk : 0 < k) (docs : List α) :
    (chunksOf k docs).flatten = docs := by
  have H : ∀ n (docs : List α), docs.length ≤ n → (chunksOf k docs).flatten = docs := by
    intro n
    induction n with
    | zero =>
      intro docs hd
      have hnil : docs = [] := List.length_eq_zero.mp (by omega)
      subst hnil
      simp [chunksOf]
    | succ n ih =>
      intro docs hd
      cases docs with
      | nil => simp [chunksOf]
      | cons d ds =>
        obtain ⟨kk, rfl⟩ : ∃ kk, k = kk + 1 := ⟨k - 1, by omega⟩
        rw [chunksOf, List.flatten_cons]
        rw [ih (List.drop (kk + 1) (d :: ds))
          (by
            simp only [List.length_drop, List.length_cons]
            simp only [List.length_cons] at hd
            omega)]
        exact List.take_append_drop (kk + 1) (d :: ds)
  exact H docs.length docs le_rfl

theorem chunksOf_chunks (k : Nat) (docs : List α) :
    ∀ c ∈ chunksOf k docs, c.length ≤ k ∧ c ≠ [] := by
  have H : ∀ n (docs : List α), docs.length ≤ n →
      ∀ c ∈ chunksOf k docs, c.length ≤ k ∧ c ≠ [] := by
    intro n
    induction n with
    | zero =>
      intro docs hd c hc
      have hnil : docs = [] := List.length_eq_zero.mp (by omega)
      subst hnil
      simp [chunksOf] at hc
    | succ n ih =>
      intro docs hd c hc
      cases docs with
      | nil => simp [chunksOf] at hc
      | cons d ds =>
        cases k with
        | zero => simp [chunksOf] at hc
        | succ kk =>
          rw [chunksOf] at hc
          rcases List.mem_cons.mp hc with rfl | hc2
          · constructor
            · simpa using List.length_take_le (kk + 1) (d :: ds)
            · simp
          · exact ih (List.drop (kk + 1) (d :: ds))
              (by
                simp only [List.length_drop, List.length_cons]
                simp only [List.length_cons] at hd
                omega) c hc2
  exact H docs.length docs le_rfl

theorem insertManyOrderedAux_all_ok (idss : List (List String)) (acc : List String) :
    insertManyOrderedAux acc (idss.map InsOutcome.ok) =
      (idss.length, .ok (acc ++ idss.flatten)) := by
  induction idss generalizing acc with
  | nil => simp [insertManyOrderedAux]
  | cons ids idss ih =>
    rw [List.map_cons, insertManyOrderedAux, ih]
    simp

theorem insertManyOrderedAux_stop (idss : List (List String)) (raw : RawResponse)
    (post : List InsOutcome) (acc : List String) :
    insertManyOrderedAux acc (idss.map InsOutcome.ok ++ .opError raw :: post) =
      (idss.length + 1,
        .error (.insertManyError [raw] (acc ++ idss.flatten ++ rawInsertedIds raw))) := by
  induction idss generalizing acc with
  | nil => simp [insertManyOrderedAux]
  | cons ids idss ih =>
    rw [List.map_cons, List.cons_append, insertManyOrderedAux, ih]
    simp

theorem insertManyOrderedAux_fatal (idss : List (List String)) (m : String)
    (post : List InsOutcome) (acc : List String) :
    insertManyOrderedAux acc (idss.map InsOutcome.ok ++ .fatal m :: post) =
      (idss.length + 1, .error (.fatal m)) := by
  induction idss generalizing acc with
  | nil => rfl
  | cons ids idss ih =>
    rw [List.map_cons, List.cons_append, insertManyOrderedAux, ih]
    simp

theorem insertManyUnorderedAux_count (outs : List InsOutcome) (order : List Nat)
    (acc : List String) (fr : List RawResponse)
    (hvalid : ∀ i ∈ order, (outs[i]?).isSome)
    (hnf : ∀ i ∈ order, ∀ o, outs[i]? = some o → ∀ m, o ≠ InsOutcome.fatal m) :
    (insertManyUnorderedAux outs order acc fr).1 = order.length := by
  induction order generalizing acc fr with
  | nil => rfl
  | cons i order ih =>
    have hv2 : ∀ j ∈ order, (outs[j]?).isSome :=
      fun j hj => hvalid j (List.mem_cons_of_mem i hj)
    have hnf2 : ∀ j ∈ order, ∀ o, outs[j]? = some o → ∀ m, o ≠ InsOutcome.fatal m :=
      fun j hj => hnf j (List.mem_cons_of_mem i hj)
    rw [insertManyUnorderedAux]
    cases hp : outs[i]? with
    | none =>
      exact absurd (hp ▸ hvalid i (List.mem_cons_self i order)) (by simp)
    | some o =>
      cases o with
      | ok ids =>
        have hrec := ih (acc ++ ids) fr hv2 hnf2
        show (insertManyUnorderedAux outs order (acc ++ ids) fr).1 + 1 = (i :: order).length
        rw [hrec]
        simp
      | opError raw =>
        have hrec := ih (acc ++ rawInsertedIds raw) (fr ++ [raw]) hv2 hnf2
        show (insertManyUnorderedAux outs order (acc ++ rawInsertedIds raw) (fr ++ [raw])).1 + 1
          = (i :: order).length
        rw [hrec]
        simp
      | fatal m => exact absurd rfl (hnf i (List.mem_cons_self i order) _ hp m)

/-! ### Small auxiliary facts used by witnesses -/

theorem arraysTruthy_str (s : String) : arraysTruthy (.str s) = true := by
  rw [arraysTruthy]
  · intro xs h
    cases h
  · intro fields h
    cases h

theorem cmdUpsertEnabled_build (op : BulkOp) :
    cmdUpsertEnabled (buildBulkWriteCommands op) = opIsUpsert op := by
  cases op <;> rfl

/-! ### Claim theorems -/

/-- C6: For every document and every dotted path, the path extractor
treats a segment that parses as a non-negative integer on an array value
as an explicit index (an out-of-range index contributes nothing) and
broadcasts a non-numeric segment across every element of an array value
(fan-out); terminal values are collected and terminal arrays are
flattened one level, so `{items: [{tag: "a"}, {tag: "b"}]}` at `items.tag`
yields `["a", "b"]` and at `items.0.tag` yields `["a"]` only. -/
theorem C6_path_extractor_semantics :
    (∀ (p : String) (rest : List String) (xs : List JVal) (k : Int),
      parseIntJS p = some k → 0 ≤ k →
      ∀ h : k.toNat < xs.length,
        extract (p :: rest) (.arr xs) = extract rest (xs.get ⟨k.toNat, h⟩)) ∧
    (∀ (p : String) (rest : List String) (xs : List JVal) (k : Int),
      parseIntJS p = some k → xs.length ≤ k.toNat →
      extract (p :: rest) (.arr xs) = []) ∧
    (∀ (p : String) (rest : List String) (xs : List JVal),
      parseIntJS p = none →
      extract (p :: rest) (.arr xs) = (xs.map (extract (p :: rest))).flatten) ∧
    (∀ xs : List JVal, extract [] (.arr xs) = xs) ∧
    (∀ v : JVal, jsFalsy v = false → (∀ xs, v ≠ .arr xs) → extract [] v = [v]) ∧
    extractVals "items.tag"
        (.obj [("items", .arr [.obj [("tag", .str "a")], .obj [("tag", .str "b")]])])
      = [.str "a", .str "b"] ∧
    extractVals "items.0.tag"
        (.obj [("items", .arr [.obj [("tag", .str "a")], .obj [("tag", .str "b")]])])
      = [.str "a"] := by
  refine ⟨extract_index_lt, extract_index_ge, extract_fanout, extract_nil_arr,
    extract_nil_scalar, ?_, ?_⟩
  · simp only [extractVals, show splitDot "items.tag" = ["items", "tag"] from by decide]
    simp [extract, jsFalsy, objGet, List.find?, parseIntJS, List.attach_map_coe]
  · simp only [extractVals, show splitDot "items.0.tag" = ["items", "0", "tag"] from by decide]
    simp [extract, jsFalsy, objGet, List.find?, parseIntJS, List.attach_map_coe, digitsVal]

/-- Witness for C6: the index, out-of-range and fan-out clauses applied at
concrete inputs, with their hypotheses discharged by evaluation. -/
theorem C6_path_extractor_semantics_witness :
    extract ["0"] (JVal.arr [JVal.num 7, JVal.num 8]) = extract [] (JVal.num 7) ∧
    extract ["2"] (JVal.arr [JVal.num 7, JVal.num 8]) = [] ∧
    extract ["tag"] (JVal.arr [JVal.num 7]) = ([JVal.num 7].map (extract ["tag"])).flatten := by
  have h := C6_path_extractor_semantics
  exact ⟨h.1 "0" [] [JVal.num 7, JVal.num 8] 0 (by decide) (by decide) (by decide),
    h.2.1 "2" [] [JVal.num 7, JVal.num 8] 2 (by decide) (by decide),
    h.2.2.1 "tag" [] [JVal.num 7] (by decide)⟩

/-- C9: The extractor function returned by `mkDistinctPathExtractor` is
not a pure per-document function: it closes over a single shared result
array, so applying it to a k-th document returns the concatenation of all
values extracted from documents 1 through k; the public `distinct`
operation masks this only through its deduplication set (it computes the
same result as it would with a pure per-document extractor). -/
theorem C9_extractor_shared_state :
    (∀ (pathStr : String) (docs : List JVal),
      extractorOutputs pathStr docs =
        (List.range docs.length).map
          (fun k => ((docs.take (k + 1)).map (extractVals pathStr)).flatten)) ∧
    (∀ (pathStr : String) (docs : List JVal),
      distinctRun pathStr docs = distinctPure pathStr docs) := by
  constructor
  · intro pathStr docs
    rw [extractorOutputs, extractorOutputs_go_eq]
    simp
  · exact distinctRun_eq_pure

/-- C10 counterexample: the claim says `distinct` never returns falsy
scalars present at the queried path, but a falsy element of an array
located at the queried path is emitted by the unguarded one-level
flatten: `distinct` at path `items` over the single document
`{items: [0]}` returns `[0]`, and `0` is falsy. -/
theorem C10_falsy_counterexample :
    jsFalsy (JVal.num 0) = true ∧
    distinctRun "items" [JVal.obj [("items", JVal.arr [JVal.num 0])]] = [JVal.num 0] := by
  constructor
  · rfl
  · simp only [distinctRun, show splitDot "items" = ["items"] from by decide]
    simp [distinctGo, dedupInto, seenHas, extract, jsFalsy, objGet, List.find?, JVal.beq]

/-- C10 amended: the short-circuit guard rejects every falsy value
reached as the value at a path step, so a terminal value of `0`, `false`,
the empty string or `null` reached directly at the path contributes nothing; however
a terminal array is flattened without re-applying the guard, so falsy
elements of an array at the queried path are emitted and can be returned
by `distinct`.  When every array in the traversed documents has only
truthy elements, the extractor output — and hence the `distinct` result —
contains no falsy values. -/
theorem C10_falsy_guard_amended :
    (∀ (path : List String) (v : JVal), jsFalsy v = true → extract path v = []) ∧
    (∀ (pathStr : String) (doc : JVal), arraysTruthy doc = true →
      ∀ v ∈ extractVals pathStr doc, jsFalsy v = false) ∧
    (∀ (pathStr : String) (docs : List JVal), (∀ d ∈ docs, arraysTruthy d = true) →
      ∀ v ∈ distinctRun pathStr docs, jsFalsy v = false) := by
  refine ⟨extract_falsy, ?_, ?_⟩
  · intro pathStr doc h
    exact extract_truthy_of_arraysTruthy _ _ h
  · intro pathStr docs h v hv
    rw [distinctRun_eq_pure, distinctPure] at hv
    rcases dedupInto_ret_sub _ _ _ _ hv with h2 | h2
    · cases h2
    · rw [List.mem_flatten] at h2
      obtain ⟨l, hl, hvl⟩ := h2
      rw [List.mem_map] at hl
      obtain ⟨d, hd, rfl⟩ := hl
      exact extract_truthy_of_arraysTruthy _ _ (h d hd) v hvl

/-- Witness for the amended C10 theorem at concrete inputs. -/
theorem C10_falsy_guard_amended_witness :
    extract ["x"] JVal.null = [] ∧ jsFalsy (JVal.str "ok") = false := by
  have h := C10_falsy_guard_amended
  refine ⟨h.1 ["x"] JVal.null rfl, ?_⟩
  have hm : extractVals "a" (JVal.obj [("a", JVal.str "ok")]) = [JVal.str "ok"] := by
    simp only [extractVals, show splitDot "a" = ["a"] from by decide]
    simp [extract, jsFalsy, objGet, List.find?]
  have hat : arraysTruthy (JVal.obj [("a", JVal.str "ok")]) = true := by
    rw [arraysTruthy_obj]
    intro p hp
    rcases List.mem_singleton.mp hp with rfl
    exact arraysTruthy_str "ok"
  exact h.2.1 "a" (JVal.obj [("a", JVal.str "ok")]) hat (JVal.str "ok")
    (by rw [hm]; exact List.mem_singleton.mpr rfl)

/-- C7: Calling `deleteMany` with an empty filter fails fast: it throws
synchronously with a message directing the caller to `deleteAll`, and no
command is sent (the call count is 0 for every scripted environment),
whereas a non-empty filter does issue a command. -/
theorem C7_deleteMany_empty_filter (envs : List DMResp) :
    deleteManyModel [] envs = (0, .error deleteManyEmptyFilterMsg) ∧
    (∃ a b, deleteManyEmptyFilterMsg = a ++ "deleteAll" ++ b) ∧
    deleteManyModel ["name"] [{ deletedCount := some 3, moreData := none }] = (1, .ok 3) := by
  refine ⟨rfl, ⟨"Cannot pass an empty filter to deleteMany, use ",
    " instead if you really want to delete everything", by decide⟩, rfl⟩

/-- C8 (cursor modelled from the spec): for any cursor over the documents
of `pages`, a second `toArray()` without `rewind()` yields `[]`; `rewind()`
restores exactly the fresh cursor (buffer, page state, consumed count and
state reset, filter/options/mapping preserved), after which `toArray()`
yields the full document set again. -/
theorem C8_cursor_toArray_rewind (pages : List (List JVal)) (filter options : JVal)
    (mapping : JVal → JVal) :
    ((FindCursor.fresh filter options mapping).toArray pages).1 = pages.flatten.map mapping ∧
    (((FindCursor.fresh filter options mapping).toArray pages).2.toArray pages).1 = [] ∧
    ((FindCursor.fresh filter options mapping).toArray pages).2.rewind =
      FindCursor.fresh filter options mapping ∧
    (((FindCursor.fresh filter options mapping).toArray pages).2.rewind.toArray pages).1 =
      pages.flatten.map mapping :=
  ⟨rfl, rfl, rfl, rfl⟩

/-- C4 (code bug): `Collection.bulkWrite` reads `options?.parallel ?? 8`,
but the declared `BulkWriteUnorderedOptions` type only exposes
`concurrency`, so a typed caller cannot set the field the implementation
reads: the worker-pool size is 8 regardless of the `concurrency` option,
and in particular `concurrency = 2` still yields a pool of 8. -/
theorem C4_concurrency_option_ignored :
    bulkWriteWorkerPoolSize none = 8 ∧
    (∀ c : Option Nat,
      bulkWriteWorkerPoolSize
        (some { ordered := false, concurrency := c, parallel := none }) = 8) ∧
    bulkWriteWorkerPoolSize
      (some { ordered := false, concurrency := some 2, parallel := none }) ≠ 2 := by
  refine ⟨rfl, fun c => rfl, by decide⟩

/-- C1: In ordered bulk-write mode, operations execute strictly
sequentially in index order: an all-success prefix folds each response
into the accumulator in order; on the first operational
(`DataAPIResponseError`) failure exactly `pre.length + 1` commands have
been issued (nothing after the failing operation is attempted, whatever
follows it), the accumulator holds every success so far plus the partial
effect inside the failing response, and a single aggregated
`BulkWriteError` carrying that partial result is thrown; a
non-operational error is re-thrown unchanged. -/
theorem C1_ordered_stop_on_failure :
    (∀ scs : List (BWCommand × BWStatus),
      bulkWriteOrdered (scs.map (fun sc => (sc.1, ExecOutcome.ok sc.2))) =
        (scs.length, .ok (foldStatuses 0 BulkWriteResult.empty (scs.map Prod.snd)))) ∧
    (∀ (scs : List (BWCommand × BWStatus)) (cmd : BWCommand) (raw : RawResponse)
        (post : List (BWCommand × ExecOutcome)),
      bulkWriteOrdered
          (scs.map (fun sc => (sc.1, ExecOutcome.ok sc.2)) ++ (cmd, .opError raw) :: post) =
        (scs.length + 1,
          .error (.bulkWriteError
            ⟨[cmd], [raw],
              applyRawStatus (foldStatuses 0 BulkWriteResult.empty (scs.map Prod.snd))
                raw scs.length⟩))) ∧
    (∀ (scs : List (BWCommand × BWStatus)) (cmd : BWCommand) (m : String)
        (post : List (BWCommand × ExecOutcome)),
      bulkWriteOrdered
          (scs.map (fun sc => (sc.1, ExecOutcome.ok sc.2)) ++ (cmd, .fatal m) :: post) =
        (scs.length + 1, .error (.fatal m))) := by
  refine ⟨?_, ?_, ?_⟩
  · intro scs
    exact bulkWriteOrderedAux_all_ok scs 0 BulkWriteResult.empty
  · intro scs cmd raw post
    have h := bulkWriteOrderedAux_stop scs cmd raw post 0 BulkWriteResult.empty
    simpa using h
  · intro scs cmd m post
    exact bulkWriteOrderedAux_fatal scs cmd m post 0 BulkWriteResult.empty

/-- C2: In unordered bulk-write mode over any schedule (a permutation of
the operation indices, as produced by the shared `masterIndex`), when no
non-operational error occurs every operation is attempted; if no
per-operation failure was recorded the accumulator is returned directly,
and otherwise a single aggregated `BulkWriteError` is thrown carrying the
recorded failing commands and raw responses together with the full
accumulator, whose totals equal the sums of the per-operation deltas over
all indices.  A non-operational (`fatal`) outcome instead propagates
unchanged, aborting the run without aggregation. -/
theorem C2_unordered_aggregation (pairs : List (BWCommand × ExecOutcome)) (order : List Nat)
    (hperm : order.Perm (List.range pairs.length)) :
    ((∀ p ∈ pairs, ∀ m, p.2 ≠ ExecOutcome.fatal m) →
      (bulkWriteUnordered pairs order).1 = pairs.length ∧
      (failures pairs order = [] →
        bulkWriteUnordered pairs order =
          (pairs.length, .ok (unorderedAccum pairs order BulkWriteResult.empty))) ∧
      (failures pairs order ≠ [] →
        bulkWriteUnordered pairs order =
          (pairs.length,
            .error (.bulkWriteError
              ⟨(failures pairs order).map Prod.fst, (failures pairs order).map Prod.snd,
                unorderedAccum pairs order BulkWriteResult.empty⟩))) ∧
      (unorderedAccum pairs order BulkWriteResult.empty).insertedCount =
        ((List.range pairs.length).map
          (fun i => optDelta stInsDelta (outcomeStatusAt pairs i))).sum ∧
      (unorderedAccum pairs order BulkWriteResult.empty).matchedCount =
        ((List.range pairs.length).map
          (fun i => optDelta stMatchedDelta (outcomeStatusAt pairs i))).sum ∧
      (unorderedAccum pairs order BulkWriteResult.empty).modifiedCount =
        ((List.range pairs.length).map
          (fun i => optDelta stModifiedDelta (outcomeStatusAt pairs i))).sum ∧
      (unorderedAccum pairs order BulkWriteResult.empty).deletedCount =
        ((List.range pairs.length).map
          (fun i => optDelta stDeletedDelta (outcomeStatusAt pairs i))).sum ∧
      (unorderedAccum pairs order BulkWriteResult.empty).upsertedCount =
        ((List.range pairs.length).map
          (fun i => optDelta stUpsertDelta (outcomeStatusAt pairs i))).sum) ∧
    (∀ (o1 : List Nat) (j : Nat) (o2 : List Nat) (c : BWCommand) (m : String),
      order = o1 ++ j :: o2 → pairs[j]? = some (c, .fatal m) →
      (∀ i ∈ o1, ∀ p, pairs[i]? = some p → ∀ m2, p.2 ≠ ExecOutcome.fatal m2) →
      (bulkWriteUnordered pairs order).2 = .error (.fatal m)) := by
  constructor
  · intro hnf
    have hlt : ∀ i ∈ order, i < pairs.length := by
      intro i hi
      have := hperm.mem_iff.mp hi
      simpa using this
    have hnfi : ∀ i ∈ order, ∀ p, pairs[i]? = some p → ∀ m, p.2 ≠ ExecOutcome.fatal m := by
      intro i _ p hp m
      exact hnf p (List.getElem?_mem hp) m
    have hrun := bulkWriteUnorderedAux_no_fatal pairs order BulkWriteResult.empty [] [] hnfi
    have hfilter : order.filter (fun i => (pairs[i]?).isSome) = order := by
      apply List.filter_eq_self.mpr
      intro i hi
      have := hlt i hi
      simp [List.getElem?_eq_getElem this]
    have hlen : order.length = pairs.length := by
      have := hperm.length_eq
      simpa using this
    have hcount : (bulkWriteUnordered pairs order).1 = pairs.length := by
      rw [bulkWriteUnordered, hrun, hfilter]
      exact hlen
    have hsum := unorderedAccum_counts pairs order BulkWriteResult.empty
    obtain ⟨s1, s2, s3, s4, s5⟩ := hsum
    have hmap : ∀ f : BWStatus → Nat,
        (order.map (fun i => optDelta f (outcomeStatusAt pairs i))).sum =
          ((List.range pairs.length).map
            (fun i => optDelta f (outcomeStatusAt pairs i))).sum := by
      intro f
      exact (hperm.map (fun i => optDelta f (outcomeStatusAt pairs i))).sum_eq
    refine ⟨hcount, ?_, ?_, ?_, ?_, ?_, ?_, ?_⟩
    · intro hfail
      rw [bulkWriteUnordered, hrun, hfilter, hfail]
      simp [hlen]
    · intro hfail
      rw [bulkWriteUnordered, hrun, hfilter]
      have : ((failures pairs order).map Prod.fst).length > 0 := by
        simp only [List.length_map]
        cases hfs : failures pairs order with
        | nil => exact absurd hfs hfail
        | cons a l => simp
      rw [if_pos (by simpa using this)]
      simp [hlen]
    · rw [s1, hmap stInsDelta]
      simp [BulkWriteResult.empty]
    · rw [s2, hmap stMatchedDelta]
      simp [BulkWriteResult.empty]
    · rw [s3, hmap stModifiedDelta]
      simp [BulkWriteResult.empty]
    · rw [s4, hmap stDeletedDelta]
      simp [BulkWriteResult.empty]
    · rw [s5, hmap stUpsertDelta]
      simp [BulkWriteResult.empty]
  · intro o1 j o2 c m horder hj h1
    subst horder
    exact bulkWriteUnorderedAux_fatal pairs o1 j o2 c m BulkWriteResult.empty [] [] hj h1

/-- Witness for C2: a two-operation unordered run (one success, one
operational failure) on the reversed schedule attempts both operations. -/
theorem C2_unordered_aggregation_witness :
    (bulkWriteUnordered
      [(BWCommand.deleteOne JVal.null, ExecOutcome.ok {}),
       (BWCommand.deleteOne JVal.null, ExecOutcome.opError { status := none })]
      [1, 0]).1 = 2 := by
  have h := C2_unordered_aggregation
    [(BWCommand.deleteOne JVal.null, ExecOutcome.ok {}),
     (BWCommand.deleteOne JVal.null, ExecOutcome.opError { status := none })]
    [1, 0] (by decide)
  have hnf : ∀ p ∈ [(BWCommand.deleteOne JVal.null, ExecOutcome.ok {}),
      (BWCommand.deleteOne JVal.null, ExecOutcome.opError ({ status := none } : RawResponse))],
      ∀ m, p.2 ≠ ExecOutcome.fatal m := by
    intro p hp m
    rcases List.mem_cons.mp hp with rfl | hp2
    · simp
    · rcases List.mem_cons.mp hp2 with rfl | hp3
      · simp
      · cases hp3
  exact (h.1 hnf).1

/-- C3: For every bulk-write run that completes without throwing (every
outcome a success), in either mode, the accumulator totals equal the sums
of the per-operation response deltas, and — provided the executor honours
its contract of returning an upserted id only for upsert-enabled commands
— every index in the upserted-id mapping belongs to a
`replaceOne`/`updateOne`/`updateMany` descriptor with `upsert = true`
whose response carried that upserted id.  Likewise a completed insert-many
run returns the concatenated ids, whose count is the sum of the per-chunk
counts. -/
theorem C3_accumulator_invariant (obs : List (BulkOp × BWStatus))
    (hcontract : ∀ ob ∈ obs, jsTruthyId ob.2.upsertedId = true →
      cmdUpsertEnabled (buildBulkWriteCommands ob.1) = true) :
    (bulkWriteOrdered (obs.map (fun ob => (buildBulkWriteCommands ob.1, ExecOutcome.ok ob.2))) =
      (obs.length, .ok (foldStatuses 0 BulkWriteResult.empty (obs.map (fun ob => ob.2))))) ∧
    ((foldStatuses 0 BulkWriteResult.empty (obs.map (fun ob => ob.2))).insertedCount =
      ((obs.map (fun ob => ob.2)).map stInsDelta).sum ∧
     (foldStatuses 0 BulkWriteResult.empty (obs.map (fun ob => ob.2))).matchedCount =
      ((obs.map (fun ob => ob.2)).map stMatchedDelta).sum ∧
     (foldStatuses 0 BulkWriteResult.empty (obs.map (fun ob => ob.2))).modifiedCount =
      ((obs.map (fun ob => ob.2)).map stModifiedDelta).sum ∧
     (foldStatuses 0 BulkWriteResult.empty (obs.map (fun ob => ob.2))).deletedCount =
      ((obs.map (fun ob => ob.2)).map stDeletedDelta).sum ∧
     (foldStatuses 0 BulkWriteResult.empty (obs.map (fun ob => ob.2))).upsertedCount =
      ((obs.map (fun ob => ob.2)).map stUpsertDelta).sum) ∧
    (∀ (i : Nat) (s : String),
      (i, s) ∈ (foldStatuses 0 BulkWriteResult.empty (obs.map (fun ob => ob.2))).upsertedIds →
      ∃ ob, obs[i]? = some ob ∧ opIsUpsert ob.1 = true ∧ ob.2.upsertedId = some s) ∧
    (∀ order : List Nat, order.Perm (List.range obs.length) →
      bulkWriteUnordered (obs.map (fun ob => (buildBulkWriteCommands ob.1, ExecOutcome.ok ob.2)))
          order =
        (obs.length,
          .ok (unorderedAccum
            (obs.map (fun ob => (buildBulkWriteCommands ob.1, ExecOutcome.ok ob.2))) order
            BulkWriteResult.empty)) ∧
      (∀ (i : Nat) (s : String),
        (i, s) ∈ (unorderedAccum
            (obs.map (fun ob => (buildBulkWriteCommands ob.1, ExecOutcome.ok ob.2))) order
            BulkWriteResult.empty).upsertedIds →
        ∃ ob, obs[i]? = some ob ∧ opIsUpsert ob.1 = true ∧ ob.2.upsertedId = some s)) ∧
    (∀ idss : List (List String),
      insertManyOrderedRun (idss.map InsOutcome.ok) = (idss.length, .ok idss.flatten) ∧
      idss.flatten.length = (idss.map List.length).sum) := by
  have hpairs :
      obs.map (fun ob => (buildBulkWriteCommands ob.1, ExecOutcome.ok ob.2)) =
        (obs.map (fun ob => (buildBulkWriteCommands ob.1, ob.2))).map
          (fun sc => (sc.1, ExecOutcome.ok sc.2)) := by
    simp [List.map_map]
  refine ⟨?_, ?_, ?_, ?_, ?_⟩
  · rw [hpairs]
    have h := bulkWriteOrderedAux_all_ok
      (obs.map (fun ob => (buildBulkWriteCommands ob.1, ob.2))) 0 BulkWriteResult.empty
    rw [bulkWriteOrdered, h]
    simp only [List.map_map, List.length_map]
    rfl
  · obtain ⟨h1, h2, h3, h4, h5⟩ :=
      foldStatuses_counts (obs.map (fun ob => ob.2)) 0 BulkWriteResult.empty
    exact ⟨by rw [h1]; exact Nat.zero_add _, by rw [h2]; exact Nat.zero_add _,
      by rw [h3]; exact Nat.zero_add _, by rw [h4]; exact Nat.zero_add _,
      by rw [h5]; exact Nat.zero_add _⟩
  · intro i s hmem
    rw [foldStatuses_upsertedIds_mem] at hmem
    rcases hmem with hmem | ⟨j, st, hj, hi, ht, hs⟩
    · cases hmem
    · rw [List.getElem?_map] at hj
      cases hob : obs[j]? with
      | none => rw [hob] at hj; cases hj
      | some ob =>
        rw [hob] at hj
        have hst : ob.2 = st := by
          injection hj
        refine ⟨ob, by rw [hi]; simpa using hob, ?_, by rw [hst]; exact hs⟩
        rw [← cmdUpsertEnabled_build]
        exact hcontract ob (List.getElem?_mem hob) (by rw [hst]; exact ht)
  · intro order hperm
    have hlen : (obs.map (fun ob => (buildBulkWriteCommands ob.1, ExecOutcome.ok ob.2))).length
        = obs.length := by simp
    have hnfi : ∀ i ∈ order, ∀ p,
        (obs.map (fun ob => (buildBulkWriteCommands ob.1, ExecOutcome.ok ob.2)))[i]? = some p →
        ∀ m, p.2 ≠ ExecOutcome.fatal m := by
      intro i _ p hp m
      have := List.getElem?_mem hp
      rw [List.mem_map] at this
      obtain ⟨ob, _, rfl⟩ := this
      simp
    have hrun := bulkWriteUnorderedAux_no_fatal
      (obs.map (fun ob => (buildBulkWriteCommands ob.1, ExecOutcome.ok ob.2)))
      order BulkWriteResult.empty [] [] hnfi
    have hlt : ∀ i ∈ order, i < obs.length := by
      intro i hi
      have := hperm.mem_iff.mp hi
      simpa using this
    have hfilter : order.filter
        (fun i => ((obs.map
          (fun ob => (buildBulkWriteCommands ob.1, ExecOutcome.ok ob.2)))[i]?).isSome)
        = order := by
      apply List.filter_eq_self.mpr
      intro i hi
      have h2 : i < (obs.map
          (fun ob => (buildBulkWriteCommands ob.1, ExecOutcome.ok ob.2))).length := by
        rw [hlen]
        exact hlt i hi
      simp [List.getElem?_eq_getElem h2]
    have hfails : failures
        (obs.map (fun ob => (buildBulkWriteCommands ob.1, ExecOutcome.ok ob.2))) order = [] := by
      apply List.filterMap_eq_nil_iff.mpr
      intro i _
      unfold failsAt
      cases hp : (obs.map (fun ob => (buildBulkWriteCommands ob.1, ExecOutcome.ok ob.2)))[i]? with
      | none => rfl
      | some p =>
        have := List.getElem?_mem hp
        rw [List.mem_map] at this
        obtain ⟨ob, _, rfl⟩ := this
        rfl
    constructor
    · rw [bulkWriteUnordered, hrun, hfilter, hfails]
      have hordlen : order.length = obs.length := by
        have := hperm.length_eq
        simpa using this
      simp [hordlen]
    · intro i s hmem
      rw [unorderedAccum_upsertedIds_mem] at hmem
      rcases hmem with hmem | ⟨_, st, hst, ht, hs⟩
      · cases hmem
      · unfold outcomeStatusAt at hst
        cases hp : (obs.map
            (fun ob => (buildBulkWriteCommands ob.1, ExecOutcome.ok ob.2)))[i]? with
        | none => rw [hp] at hst; cases hst
        | some p =>
          rw [hp] at hst
          rw [List.getElem?_map] at hp
          cases hob : obs[i]? with
          | none => rw [hob] at hp; cases hp
          | some ob =>
            rw [hob] at hp
            have hpv : p = (buildBulkWriteCommands ob.1, ExecOutcome.ok ob.2) := by
              injection hp with hp2
              exact hp2.symm
            subst hpv
            have hstv : ob.2 = st := by
              injection hst
            refine ⟨ob, rfl, ?_, by rw [hstv]; exact hs⟩
            rw [← cmdUpsertEnabled_build]
            exact hcontract ob (List.getElem?_mem hob) (by rw [hstv]; exact ht)
  · intro idss
    constructor
    · have h := insertManyOrderedAux_all_ok idss []
      rw [insertManyOrderedRun, h]
      simp
    · simp [List.length_flatten]

/-- Witness for C3: a single upserting update whose response carries an
upserted id, run through the ordered path. -/
theorem C3_accumulator_invariant_witness :
    bulkWriteOrdered
        ([(BulkOp.updateOne JVal.null JVal.null (some true),
          ({ upsertedId := some "u" } : BWStatus))].map
          (fun ob => (buildBulkWriteCommands ob.1, ExecOutcome.ok ob.2))) =
      (1, .ok (foldStatuses 0 BulkWriteResult.empty
        ([(BulkOp.updateOne JVal.null JVal.null (some true),
          ({ upsertedId := some "u" } : BWStatus))].map (fun ob => ob.2)))) := by
  have h := C3_accumulator_invariant
    [(BulkOp.updateOne JVal.null JVal.null (some true), ({ upsertedId := some "u" } : BWStatus))]
    (by
      intro ob hob ht
      rcases List.mem_singleton.mp hob with rfl
      rfl)
  exact h.1

/-- C5: `Collection.insertMany` splits the documents into fixed-size
chunks of `options?.chunkSize ?? 20` (each chunk non-empty, of at most
the chunk size, and flattening back to the input); each chunk is one
logical operation, so in the ordered path a chunk failure stops all
subsequent chunks (exactly `pre.length + 1` chunk commands are issued),
while in the unordered path every chunk is attempted even when some
chunks fail, as long as no transport-level error occurs. -/
theorem C5_insertMany_chunking :
    insertManyChunkSize none = 20 ∧
    (∀ (o : Bool) (p : Option Nat),
      insertManyChunkSize (some { ordered := o, chunkSize := none, parallel := p }) = 20) ∧
    (∀ (docs : List JVal) (opts : Option InsertManyOptsModel),
      insertManyChunks docs opts = chunksOf (insertManyChunkSize opts) docs) ∧
    (∀ (k : Nat) (docs : List JVal), 0 < k →
      (chunksOf k docs).flatten = docs ∧ ∀ c ∈ chunksOf k docs, c.length ≤ k ∧ c ≠ []) ∧
    (∀ (idss : List (List String)) (raw : RawResponse) (post : List InsOutcome),
      insertManyOrderedRun (idss.map InsOutcome.ok ++ .opError raw :: post) =
        (idss.length + 1,
          .error (.insertManyError [raw] (idss.flatten ++ rawInsertedIds raw)))) ∧
    (∀ (outs : List InsOutcome) (order : List Nat),
      order.Perm (List.range outs.length) →
      (∀ o ∈ outs, ∀ m, o ≠ InsOutcome.fatal m) →
      (insertManyUnorderedRun outs order).1 = outs.length) := by
  refine ⟨rfl, fun o p => rfl, fun docs opts => rfl, ?_, ?_, ?_⟩
  · intro k docs hk
    exact ⟨chunksOf_flatten k hk docs, chunksOf_chunks k docs⟩
  · intro idss raw post
    have h := insertManyOrderedAux_stop idss raw post []
    simpa using h
  · intro outs order hperm hnf
    have hvalid : ∀ i ∈ order, (outs[i]?).isSome := by
      intro i hi
      have hlt : i < outs.length := by
        have := hperm.mem_iff.mp hi
        simpa using this
      simp [List.getElem?_eq_getElem hlt]
    have hnfi : ∀ i ∈ order, ∀ o, outs[i]? = some o → ∀ m, o ≠ InsOutcome.fatal m := by
      intro i _ o ho m
      exact hnf o (List.getElem?_mem ho) m
    have h := insertManyUnorderedAux_count outs order [] [] hvalid hnfi
    rw [insertManyUnorderedRun, h]
    have := hperm.length_eq
    simpa using this

/-- Witness for C5: chunking three documents by 2, and an unordered run
with one failing chunk that still attempts both chunks. -/
theorem C5_insertMany_chunking_witness :
    (chunksOf 2 [JVal.num 1, JVal.num 2, JVal.num 3]).flatten
      = [JVal.num 1, JVal.num 2, JVal.num 3] ∧
    (insertManyUnorderedRun
      [InsOutcome.ok ["a"], InsOutcome.opError { status := none }] [1, 0]).1 = 2 := by
  have h := C5_insertMany_chunking
  constructor
  · exact (h.2.2.2.1 2 [JVal.num 1, JVal.num 2, JVal.num 3] (by decide)).1
  · apply h.2.2.2.2.2 [InsOutcome.ok ["a"], InsOutcome.opError { status := none }] [1, 0]
      (by decide)
    intro o ho m
    rcases List.mem_cons.mp ho with rfl | ho2
    · simp
    · rcases List.mem_cons.mp ho2 with rfl | ho3
      · simp
      · cases ho3

end AstraDB
